import Mathlib

set_option maxHeartbeats 1000000

namespace NotesApp

/-! Shallow embedding of the note-taking application.

Source files embedded here:
* `src/types.ts` — the `Category` and `Note` data model and the `AIResponse` shape.
* `src/App.tsx` — the repository operations (`handleSaveNote`, `handleDeleteNote`,
  `toggleFavorite`, `handleAddNote`), the query engine (`filteredNotes`), the
  persistence layer (the `useState` initializer reading `localStorage` and the
  `useEffect` writing `JSON.stringify(notes)`), and the editor-session AI flow
  (`handleAISuggestions`, `handleAIEnhance`, button `disabled` guards).
* `src/services/geminiService.ts` — `getSmartSuggestions` (length guard and
  error swallowing); the remote Gemini call is abstracted as an injected
  fallible function.

JavaScript machine details are modelled as follows: timestamps (`Date.now()`)
are `Nat`; `JSON.stringify`/`JSON.parse` are modelled by an executable
serializer and recursive-descent parser over a JSON value type (the number
grammar is restricted to the unsigned integers, which is all the application
ever stores; `JSON.parse` throwing is modelled as `Option.none`); JavaScript
string falsiness (`!s`) is the test `s = ""`; `toLowerCase` is `Char.toLower`
mapped over the characters. -/

/-- The fixed category set, from `Category` in `src/types.ts`. -/
inductive Category where
  | general
  | personal
  | work
  | ideas
  | urgent
deriving DecidableEq, Repr

/-- A note record, from the `Note` interface in `src/types.ts`. -/
structure Note where
  id : String
  title : String
  content : String
  category : Category
  updatedAt : Nat
  isFavorite : Bool
deriving DecidableEq, Repr

/-- AI suggestion payload, from the `AIResponse` interface in `src/types.ts`.
Optional fields model possibly-absent JavaScript object properties. -/
structure AIResponse where
  title : Option String
  summary : Option String
  suggestedCategory : Option Category
deriving DecidableEq, Repr

/-! ## Query engine (`filteredNotes` in `src/App.tsx`, lines 43-52) -/

/-- The `selectedCategory` state: either the sentinel `'All'` or a category. -/
inductive CategoryFilter where
  | all
  | only (c : Category)
deriving DecidableEq, Repr

/-- Model of `String.prototype.toLowerCase()` on the character list. -/
def lowerL (s : String) : List Char := s.data.map Char.toLower

/-- Model of `String.prototype.includes`: does `needle` occur as a contiguous
substring of `hay`? -/
def hasSub (hay needle : List Char) : Bool :=
  match hay with
  | [] => needle.isEmpty
  | c :: t => needle.isPrefixOf (c :: t) || hasSub t needle

/-- The filter predicate of `filteredNotes`: `matchesSearch && matchesCategory`. -/
def noteMatches (q : String) (catF : CategoryFilter) (n : Note) : Bool :=
  (hasSub (lowerL n.title) (lowerL q) || hasSub (lowerL n.content) (lowerL q)) &&
  (match catF with
   | .all => true
   | .only c => n.category = c)

/-- The query engine: filter by search text and category, then sort descending
by `updatedAt` (the `.sort((a, b) => b.updatedAt - a.updatedAt)` call;
ECMAScript guarantees a permutation sorted by the comparator, modelled here
with `mergeSort` on the comparator read as `b.updatedAt ≤ a.updatedAt`). -/
def filteredNotes (notes : List Note) (q : String) (catF : CategoryFilter) : List Note :=
  (notes.filter (noteMatches q catF)).mergeSort (fun a b => b.updatedAt ≤ a.updatedAt)

/-! ## Repository operations (`src/App.tsx`) -/

/-- `handleSaveNote` (lines 80-90): insert-or-replace by `id`, stamping
`updatedAt` with the current time `now`.  The source tests existence with
`prev.find(n => n.id === updatedNote.id)` used for its truthiness, which is
`prev.any` here. -/
def upsertNote (prev : List Note) (u : Note) (now : Nat) : List Note :=
  if prev.any (fun n => n.id = u.id) then
    prev.map (fun n => if n.id = u.id then { u with updatedAt := now } else n)
  else
    prev ++ [{ u with updatedAt := now }]

/-- `handleDeleteNote` (lines 92-97): drop the note with the given id. -/
def removeNote (notes : List Note) (i : String) : List Note :=
  notes.filter (fun n => n.id ≠ i)

/-- `toggleFavorite` (lines 99-102): flip `isFavorite` on the matching note. -/
def toggleFav (notes : List Note) (i : String) : List Note :=
  notes.map (fun n => if n.id = i then { n with isFavorite := !n.isFavorite } else n)

/-- Sanity: an upsert into the empty collection appends the stamped note. -/
theorem upsert_empty_sanity : upsertNote [] ⟨"1", "a", "b", .general, 0, false⟩ 7 =
    [⟨"1", "a", "b", .general, 7, false⟩] := by decide

/-- Sanity: case-insensitive substring search matches "bud" in "the Budget". -/
theorem noteMatches_sanity :
    (noteMatches "bud" (.only .work) ⟨"1", "a", "the Budget", .work, 3, false⟩) = true := by
  decide

/-! ## JSON values and serialization

The persistence layer stores `JSON.stringify(notes)` under one `localStorage`
key and reads it back with `JSON.parse`.  JavaScript values that can appear
here are modelled by `Json`; the number grammar is restricted to unsigned
integers (the only numbers the application produces). -/

/-- A JSON value (integer-only number grammar). -/
inductive Json where
  | null
  | bool (b : Bool)
  | num (n : Nat)
  | str (s : String)
  | arr (elems : List Json)
  | obj (fields : List (String × Json))
deriving Repr

/-- Decimal digit character for `d < 10`. -/
def digitChar (d : Nat) : Char := Char.ofNat (48 + d)

/-- Decimal digits of a natural number, most significant first. -/
def natDigits (n : Nat) : List Char :=
  if _h : n < 10 then [digitChar n]
  else natDigits (n / 10) ++ [digitChar (n % 10)]
decreasing_by exact Nat.div_lt_self (by omega) (by omega)

/-- Model of JavaScript `Number.prototype.toString` / `Date.now().toString()`
for natural numbers. -/
def natToString (n : Nat) : String := String.mk (natDigits n)

/-- Lower-case hexadecimal digit character for `d < 16`. -/
def hexDigit (d : Nat) : Char :=
  if d < 10 then Char.ofNat (48 + d) else Char.ofNat (87 + d)

/-- The escape `JSON.stringify` applies to one character inside a string
literal: quote, backslash, the named control escapes, `\u00XX` for the other
control characters, and everything else verbatim. -/
def escapeChar (c : Char) : List Char :=
  if c = '"' then ['\\', '"']
  else if c = '\\' then ['\\', '\\']
  else if c = '\x08' then ['\\', 'b']
  else if c = '\x0c' then ['\\', 'f']
  else if c = '\n' then ['\\', 'n']
  else if c = '\r' then ['\\', 'r']
  else if c = '\t' then ['\\', 't']
  else if c.toNat < 32 then
    ['\\', 'u', '0', '0', hexDigit (c.toNat / 16), hexDigit (c.toNat % 16)]
  else [c]

/-- Escape every character of a string body. -/
def escChars : List Char → List Char
  | [] => []
  | c :: cs => escapeChar c ++ escChars cs

/-- A serialized JSON string literal, quotes included. -/
def strLit (s : String) : List Char := '"' :: (escChars s.data ++ ['"'])

mutual

/-- Model of `JSON.stringify` (compact form, no added whitespace). -/
def strJson : Json → List Char
  | .num n => natDigits n
  | .str s => strLit s
  | .null => ['n', 'u', 'l', 'l']
  | .arr xs => '[' :: (strElems xs ++ [']'])
  | .bool true => ['t', 'r', 'u', 'e']
  | .obj fs => '{' :: (strFields fs ++ ['}'])
  | .bool false => ['f', 'a', 'l', 's', 'e']

/-- Serialize array elements (no trailing bracket). -/
def strElems : List Json → List Char
  | [] => []
  | x :: xs => strJson x ++ strElemsRest xs

/-- Serialize array elements after the first, each preceded by a comma. -/
def strElemsRest : List Json → List Char
  | [] => []
  | x :: xs => ',' :: (strJson x ++ strElemsRest xs)

/-- Serialize object members (no trailing brace). -/
def strFields : List (String × Json) → List Char
  | [] => []
  | (k, v) :: fs => strLit k ++ (':' :: (strJson v ++ strFieldsRest fs))

/-- Serialize object members after the first, each preceded by a comma. -/
def strFieldsRest : List (String × Json) → List Char
  | [] => []
  | (k, v) :: fs => ',' :: (strLit k ++ (':' :: (strJson v ++ strFieldsRest fs)))

end

/-! ## JSON parsing (model of `JSON.parse`)

A fuelled recursive-descent parser.  `none` models `JSON.parse` throwing a
`SyntaxError`.  The parser accepts exactly the JSON grammar restricted to
unsigned-integer numbers. -/

/-- JSON insignificant whitespace. -/
def isWsChar (c : Char) : Bool := c = ' ' || c = '\t' || c = '\n' || c = '\r'

/-- Skip leading whitespace. -/
def skipWs : List Char → List Char
  | [] => []
  | c :: r => if isWsChar c then skipWs r else c :: r

/-- Consume an exact literal, returning the remainder. -/
def dropLit : List Char → List Char → Option (List Char)
  | [], s => some s
  | c :: cs, d :: ds => if d = c then dropLit cs ds else none
  | _ :: _, [] => none

/-- Is the character a decimal digit? -/
def isDigitCh (c : Char) : Bool := 48 ≤ c.toNat && c.toNat ≤ 57

/-- Numeric value of a decimal digit character. -/
def digVal (c : Char) : Nat := c.toNat - 48

/-- Consume a maximal run of decimal digits, accumulating their value. -/
def takeDigits : List Char → Nat → Nat × List Char
  | [], acc => (acc, [])
  | c :: r, acc => if isDigitCh c then takeDigits r (acc * 10 + digVal c) else (acc, c :: r)

/-- Numeric value of a hexadecimal digit character, if it is one. -/
def hexVal (c : Char) : Option Nat :=
  if 48 ≤ c.toNat && c.toNat ≤ 57 then some (c.toNat - 48)
  else if 97 ≤ c.toNat && c.toNat ≤ 102 then some (c.toNat - 87)
  else if 65 ≤ c.toNat && c.toNat ≤ 70 then some (c.toNat - 55)
  else none

/-- Combined value of a four-hex-digit escape, if all four are hex digits. -/
def hexVal4 (d1 d2 d3 d4 : Char) : Option Nat :=
  match hexVal d1, hexVal d2, hexVal d3, hexVal d4 with
  | some a, some b, some c, some d => some (((a * 16 + b) * 16 + c) * 16 + d)
  | _, _, _, _ => none

/-- Decode one escape sequence (the backslash already consumed), returning the
unescaped character and the remainder. -/
def unescape1 : List Char → Option (Char × List Char)
  | [] => none
  | e :: r2 =>
    if e = '"' then some ('"', r2)
    else if e = '\\' then some ('\\', r2)
    else if e = '/' then some ('/', r2)
    else if e = 'b' then some ('\x08', r2)
    else if e = 'f' then some ('\x0c', r2)
    else if e = 'n' then some ('\n', r2)
    else if e = 'r' then some ('\r', r2)
    else if e = 't' then some ('\t', r2)
    else if e = 'u' then
      match r2 with
      | d1 :: d2 :: d3 :: d4 :: r3 =>
        match hexVal4 d1 d2 d3 d4 with
        | some code => some (Char.ofNat code, r3)
        | none => none
      | _ => none
    else none

theorem unescape1_length {r : List Char} {u : Char} {r2 : List Char}
    (h : unescape1 r = some (u, r2)) : r2.length < r.length := by
  match r with
  | [] => simp [unescape1] at h
  | e :: rr =>
    simp only [unescape1] at h
    split_ifs at h <;>
      first
      | (simp only [Option.some.injEq, Prod.mk.injEq] at h
         obtain ⟨-, rfl⟩ := h
         simp)
      | (split at h
         · split at h
           · simp only [Option.some.injEq, Prod.mk.injEq] at h
             obtain ⟨-, rfl⟩ := h
             simp only [List.length_cons]
             omega
           · exact absurd h (by simp)
         · exact absurd h (by simp))
      | exact absurd h (by simp)

/-- Parse the body of a JSON string literal (the opening quote already
consumed), unescaping as `JSON.parse` does; `acc` holds the characters read so
far in reverse. -/
def parseStrAux (acc : List Char) : List Char → Option (String × List Char)
  | [] => none
  | c :: r =>
    if c = '"' then some (String.mk acc.reverse, r)
    else if c = '\\' then
      match h : unescape1 r with
      | some (u, r2) => parseStrAux (u :: acc) r2
      | none => none
    else if c.toNat < 32 then none
    else parseStrAux (c :: acc) r
termination_by s => s.length
decreasing_by
  · exact Nat.lt_trans (unescape1_length h) (by simp)
  · simp

mutual

/-- Parse one JSON value. -/
def parseVal : Nat → List Char → Option (Json × List Char)
  | 0, _ => none
  | fuel + 1, s =>
    match skipWs s with
    | [] => none
    | c :: r =>
      if c = 'n' then (dropLit ['u', 'l', 'l'] r).map (fun r2 => (Json.null, r2))
      else if c = 't' then (dropLit ['r', 'u', 'e'] r).map (fun r2 => (Json.bool true, r2))
      else if c = 'f' then (dropLit ['a', 'l', 's', 'e'] r).map (fun r2 => (Json.bool false, r2))
      else if c = '"' then (parseStrAux [] r).map (fun p => (Json.str p.1, p.2))
      else if c = '[' then
        match parseElems fuel r with
        | some (xs, r2) => some (Json.arr xs, r2)
        | none => none
      else if c = '{' then
        match parseFields fuel r with
        | some (fs, r2) => some (Json.obj fs, r2)
        | none => none
      else if isDigitCh c then
        let p := takeDigits (c :: r) 0
        some (Json.num p.1, p.2)
      else none

/-- Parse array elements up to the closing bracket. -/
def parseElems : Nat → List Char → Option (List Json × List Char)
  | 0, _ => none
  | fuel + 1, s =>
    match skipWs s with
    | [] => none
    | c :: r =>
      if c = ']' then some ([], r)
      else
        match parseVal fuel (c :: r) with
        | some (x, r2) =>
          match parseElemsRest fuel r2 with
          | some (xs, r3) => some (x :: xs, r3)
          | none => none
        | none => none

/-- Parse comma-separated further array elements up to the closing bracket. -/
def parseElemsRest : Nat → List Char → Option (List Json × List Char)
  | 0, _ => none
  | fuel + 1, s =>
    match skipWs s with
    | [] => none
    | c :: r =>
      if c = ']' then some ([], r)
      else if c = ',' then
        match parseVal fuel r with
        | some (x, r2) =>
          match parseElemsRest fuel r2 with
          | some (xs, r3) => some (x :: xs, r3)
          | none => none
        | none => none
      else none

/-- Parse object members up to the closing brace. -/
def parseFields : Nat → List Char → Option (List (String × Json) × List Char)
  | 0, _ => none
  | fuel + 1, s =>
    match skipWs s with
    | [] => none
    | c :: r =>
      if c = '}' then some ([], r)
      else if c = '"' then
        match parseStrAux [] r with
        | some (k, r2) =>
          match skipWs r2 with
          | ':' :: r3 =>
            match parseVal fuel r3 with
            | some (v, r4) =>
              match parseFieldsRest fuel r4 with
              | some (fs, r5) => some ((k, v) :: fs, r5)
              | none => none
            | none => none
          | _ => none
        | none => none
      else none

/-- Parse comma-separated further object members up to the closing brace. -/
def parseFieldsRest : Nat → List Char → Option (List (String × Json) × List Char)
  | 0, _ => none
  | fuel + 1, s =>
    match skipWs s with
    | [] => none
    | c :: r =>
      if c = '}' then some ([], r)
      else if c = ',' then
        match skipWs r with
        | '"' :: r2 =>
          match parseStrAux [] r2 with
          | some (k, r3) =>
            match skipWs r3 with
            | ':' :: r4 =>
              match parseVal fuel r4 with
              | some (v, r5) =>
                match parseFieldsRest fuel r5 with
                | some (fs, r6) => some ((k, v) :: fs, r6)
                | none => none
              | none => none
            | _ => none
          | none => none
        | _ => none
      else none

end

/-- Model of `JSON.parse`: parse one value and require only whitespace after
it; `none` models the thrown `SyntaxError`. -/
def parseJson (s : String) : Option Json :=
  match parseVal (2 * s.length + 2) s.data with
  | some (j, rest) => if skipWs rest = [] then some j else none
  | none => none

/-- Sanity: a malformed input makes the parser fail. -/
theorem parseJson_malformed_sanity : parseJson "x" = none := rfl

/-- Sanity: a small JSON array parses to the expected value. -/
theorem parseJson_array_sanity :
    parseJson "[null,true,12]" = some (.arr [.null, .bool true, .num 12]) := rfl

/-! ## Round-trip lemmas: digits -/

/-- The remainder after a serialized number must not begin with a digit
(otherwise the maximal-munch digit scan would continue into it). -/
def numStop : List Char → Prop
  | [] => True
  | c :: _ => isDigitCh c = false

theorem digitChar_toNat {d : Nat} (h : d < 10) : (digitChar d).toNat = 48 + d := by
  interval_cases d <;> decide

theorem isDigitCh_digitChar {d : Nat} (h : d < 10) : isDigitCh (digitChar d) = true := by
  interval_cases d <;> decide

theorem digVal_digitChar {d : Nat} (h : d < 10) : digVal (digitChar d) = d := by
  interval_cases d <;> decide

theorem natDigits_ne_nil (n : Nat) : natDigits n ≠ [] := by
  rw [natDigits]
  split <;> simp

theorem natDigits_digits (n : Nat) : ∀ c ∈ natDigits n, isDigitCh c = true := by
  induction n using Nat.strong_induction_on with
  | _ n ih =>
    rw [natDigits]
    split
    · next h =>
      intro c hc
      simp at hc
      subst hc
      exact isDigitCh_digitChar h
    · next h =>
      intro c hc
      rcases List.mem_append.mp hc with h1 | h2
      · exact ih (n / 10) (Nat.div_lt_self (by omega) (by omega)) c h1
      · simp at h2
        subst h2
        exact isDigitCh_digitChar (Nat.mod_lt _ (by omega))

theorem natDigits_head (n : Nat) : ∃ d ds, natDigits n = d :: ds ∧ isDigitCh d = true := by
  cases hnd : natDigits n with
  | nil => exact absurd hnd (natDigits_ne_nil n)
  | cons d ds =>
    refine ⟨d, ds, rfl, natDigits_digits n d ?_⟩
    rw [hnd]
    exact List.mem_cons_self d ds

theorem takeDigits_append (ds : List Char) :
    ∀ acc rest, (∀ c ∈ ds, isDigitCh c = true) →
      takeDigits (ds ++ rest) acc =
        takeDigits rest (ds.foldl (fun a c => a * 10 + digVal c) acc) := by
  induction ds with
  | nil => intro acc rest _; simp
  | cons c cs ih =>
    intro acc rest h
    have hc : isDigitCh c = true := h c (List.mem_cons_self c cs)
    simp only [List.cons_append, takeDigits, hc, if_true, List.foldl_cons]
    exact ih _ rest (fun d hd => h d (List.mem_cons_of_mem c hd))

theorem takeDigits_stop (rest : List Char) (acc : Nat) (h : numStop rest) :
    takeDigits rest acc = (acc, rest) := by
  cases rest with
  | nil => rfl
  | cons c r =>
    simp only [numStop] at h
    simp [takeDigits, h]

theorem natDigits_foldl (n : Nat) : ∀ acc,
    (natDigits n).foldl (fun a c => a * 10 + digVal c) acc =
      acc * 10 ^ (natDigits n).length + n := by
  induction n using Nat.strong_induction_on with
  | _ n ih =>
    intro acc
    rw [natDigits]
    split
    · next h =>
      simp [digVal_digitChar h]
    · next h =>
      rw [List.foldl_append, ih (n / 10) (Nat.div_lt_self (by omega) (by omega)) acc]
      simp only [List.foldl_cons, List.foldl_nil, List.length_append, List.length_cons,
        List.length_nil]
      rw [Nat.pow_succ]
      have hdm : n / 10 * 10 + n % 10 = n := by omega
      rw [digVal_digitChar (Nat.mod_lt _ (by omega))]
      ring_nf
      omega

theorem takeDigits_natDigits (n : Nat) (rest : List Char) (h : numStop rest) :
    takeDigits (natDigits n ++ rest) 0 = (n, rest) := by
  rw [takeDigits_append (natDigits n) 0 rest (natDigits_digits n), natDigits_foldl n 0,
    takeDigits_stop rest _ h]
  simp

theorem natToString_inj {a b : Nat} (h : natToString a = natToString b) : a = b := by
  have hd : natDigits a = natDigits b := congrArg String.data h
  have ha := takeDigits_natDigits a [] trivial
  have hb := takeDigits_natDigits b [] trivial
  rw [List.append_nil] at ha hb
  rw [hd, hb] at ha
  exact (Prod.mk.injEq _ _ _ _ ▸ ha).1.symm

/-! ## Round-trip lemmas: string literals -/

theorem hexVal_hexDigit {d : Nat} (h : d < 16) : hexVal (hexDigit d) = some d := by
  interval_cases d <;> decide

theorem psa_close (acc r : List Char) :
    parseStrAux acc ('"' :: r) = some (String.mk acc.reverse, r) := by
  rw [parseStrAux.eq_def]; rfl

theorem psa_esc (acc r : List Char) (u : Char) (r2 : List Char)
    (h : unescape1 r = some (u, r2)) :
    parseStrAux acc ('\\' :: r) = parseStrAux (u :: acc) r2 := by
  rw [parseStrAux.eq_def]
  dsimp only
  rw [if_neg (by decide : ¬('\\' : Char) = '"'), if_pos (rfl : ('\\' : Char) = '\\')]
  split
  · next u' r2' heq =>
    rw [h] at heq
    injection heq with heq2
    injection heq2 with hu hr
    rw [hu, hr]
  · next heq =>
    rw [h] at heq
    exact absurd heq (by simp)

theorem unescape1_q (r : List Char) : unescape1 ('"' :: r) = some ('"', r) := rfl

theorem unescape1_bs (r : List Char) : unescape1 ('\\' :: r) = some ('\\', r) := rfl

theorem unescape1_b (r : List Char) : unescape1 ('b' :: r) = some ('\x08', r) := rfl

theorem unescape1_f (r : List Char) : unescape1 ('f' :: r) = some ('\x0c', r) := rfl

theorem unescape1_n (r : List Char) : unescape1 ('n' :: r) = some ('\n', r) := rfl

theorem unescape1_cr (r : List Char) : unescape1 ('r' :: r) = some ('\r', r) := rfl

theorem unescape1_t (r : List Char) : unescape1 ('t' :: r) = some ('\t', r) := rfl

theorem unescape1_u (d1 d2 d3 d4 : Char) (r : List Char) (code : Nat)
    (hc : hexVal4 d1 d2 d3 d4 = some code) :
    unescape1 ('u' :: d1 :: d2 :: d3 :: d4 :: r) = some (Char.ofNat code, r) := by
  simp only [unescape1, hc]
  rfl

theorem psa_lit (acc r : List Char) (c : Char) (h1 : ¬c = '"') (h2 : ¬c = '\\')
    (h3 : ¬c.toNat < 32) : parseStrAux acc (c :: r) = parseStrAux (c :: acc) r := by
  rw [parseStrAux.eq_def]
  simp only [h1, h2, h3, if_false, ite_false]

theorem parseStrAux_escChars (cs : List Char) :
    ∀ acc rest, parseStrAux acc (escChars cs ++ ('"' :: rest)) =
      some (String.mk (acc.reverse ++ cs), rest) := by
  induction cs with
  | nil =>
    intro acc rest
    rw [escChars, List.nil_append, psa_close]
    simp
  | cons c cs ih =>
    intro acc rest
    rw [escChars, List.append_assoc]
    by_cases h1 : c = '"'
    · subst h1
      rw [show escapeChar '"' = ['\\', '"'] from rfl]
      simp only [List.cons_append, List.nil_append]
      rw [psa_esc _ _ _ _ (unescape1_q _), ih]
      simp
    · by_cases h2 : c = '\\'
      · subst h2
        rw [show escapeChar '\\' = ['\\', '\\'] from rfl]
        simp only [List.cons_append, List.nil_append]
        rw [psa_esc _ _ _ _ (unescape1_bs _), ih]
        simp
      · by_cases h3 : c = '\x08'
        · subst h3
          rw [show escapeChar '\x08' = ['\\', 'b'] from rfl]
          simp only [List.cons_append, List.nil_append]
          rw [psa_esc _ _ _ _ (unescape1_b _), ih]
          simp
        · by_cases h4 : c = '\x0c'
          · subst h4
            rw [show escapeChar '\x0c' = ['\\', 'f'] from rfl]
            simp only [List.cons_append, List.nil_append]
            rw [psa_esc _ _ _ _ (unescape1_f _), ih]
            simp
          · by_cases h5 : c = '\n'
            · subst h5
              rw [show escapeChar '\n' = ['\\', 'n'] from rfl]
              simp only [List.cons_append, List.nil_append]
              rw [psa_esc _ _ _ _ (unescape1_n _), ih]
              simp
            · by_cases h6 : c = '\r'
              · subst h6
                rw [show escapeChar '\r' = ['\\', 'r'] from rfl]
                simp only [List.cons_append, List.nil_append]
                rw [psa_esc _ _ _ _ (unescape1_cr _), ih]
                simp
              · by_cases h7 : c = '\t'
                · subst h7
                  rw [show escapeChar '\t' = ['\\', 't'] from rfl]
                  simp only [List.cons_append, List.nil_append]
                  rw [psa_esc _ _ _ _ (unescape1_t _), ih]
                  simp
                · by_cases h8 : c.toNat < 32
                  · have hhi : hexVal (hexDigit (c.toNat / 16)) = some (c.toNat / 16) :=
                      hexVal_hexDigit (by omega)
                    have hlo : hexVal (hexDigit (c.toNat % 16)) = some (c.toNat % 16) :=
                      hexVal_hexDigit (by omega)
                    have hc : hexVal4 '0' '0' (hexDigit (c.toNat / 16))
                        (hexDigit (c.toNat % 16)) = some c.toNat := by
                      simp only [hexVal4, hhi, hlo, show hexVal '0' = some 0 from rfl]
                      congr 1
                      omega
                    rw [show escapeChar c = ['\\', 'u', '0', '0', hexDigit (c.toNat / 16),
                          hexDigit (c.toNat % 16)] by
                        rw [escapeChar]
                        simp only [h1, h2, h3, h4, h5, h6, h7, h8, if_false, ite_false,
                          if_true, ite_true]]
                    simp only [List.cons_append, List.nil_append]
                    rw [psa_esc _ _ _ _ (unescape1_u _ _ _ _ _ _ hc), Char.ofNat_toNat, ih]
                    simp
                  · rw [show escapeChar c = [c] by
                        rw [escapeChar]
                        simp only [h1, h2, h3, h4, h5, h6, h7, h8, if_false, ite_false]]
                    simp only [List.cons_append, List.nil_append]
                    rw [psa_lit _ _ _ h1 h2 h8, ih]
                    simp

theorem parseStrAux_strLit (s : String) (rest : List Char) :
    parseStrAux [] (escChars s.data ++ ('"' :: rest)) = some (s, rest) := by
  rw [parseStrAux_escChars]
  rfl

/-! ## Round-trip lemmas: values -/

theorem skipWs_cons_of (c : Char) (l : List Char) (h : isWsChar c = false) :
    skipWs (c :: l) = c :: l := by
  simp [skipWs, h]

theorem isDigitCh_facts (c : Char) (h : isDigitCh c = true) :
    isWsChar c = false ∧ ¬c = 'n' ∧ ¬c = 't' ∧ ¬c = 'f' ∧ ¬c = '"' ∧ ¬c = '[' ∧ ¬c = '{' ∧
      ¬c = ']' ∧ ¬c = '}' ∧ ¬c = ',' ∧ ¬c = ':' := by
  refine ⟨?_, ?_, ?_, ?_, ?_, ?_, ?_, ?_, ?_, ?_, ?_⟩
  · cases hw : isWsChar c
    · rfl
    · exfalso
      have hc : ((c = ' ' ∨ c = '\t') ∨ c = '\n') ∨ c = '\r' := by
        simpa [isWsChar] using hw
      rcases hc with ((rfl | rfl) | rfl) | rfl <;> exact absurd h (by decide)
  all_goals (rintro rfl; exact absurd h (by decide))

theorem strJson_head (j : Json) : ∃ c cs, strJson j = c :: cs ∧ isWsChar c = false ∧
    ¬c = ']' ∧ ¬c = '}' ∧ ¬c = ',' := by
  cases j with
  | null =>
    exact ⟨'n', ['u', 'l', 'l'], by simp [strJson], by decide, by decide, by decide, by decide⟩
  | bool b =>
    cases b with
    | true =>
      exact ⟨'t', ['r', 'u', 'e'], by simp [strJson], by decide, by decide, by decide, by decide⟩
    | false =>
      exact ⟨'f', ['a', 'l', 's', 'e'], by simp [strJson], by decide, by decide, by decide,
        by decide⟩
  | num n =>
    obtain ⟨d, ds, hnd, hdig⟩ := natDigits_head n
    obtain ⟨hws, _, _, _, _, _, _, hrb, hcb, hcm, _⟩ := isDigitCh_facts d hdig
    exact ⟨d, ds, by simp [strJson, hnd], hws, hrb, hcb, hcm⟩
  | str s =>
    exact ⟨'"', escChars s.data ++ ['"'], by simp [strJson, strLit], by decide, by decide,
      by decide, by decide⟩
  | arr xs =>
    exact ⟨'[', strElems xs ++ [']'], by simp [strJson], by decide, by decide, by decide,
      by decide⟩
  | obj fs =>
    exact ⟨'{', strFields fs ++ ['}'], by simp [strJson], by decide, by decide, by decide,
      by decide⟩

theorem numStop_elemsRest (xs : List Json) (rest : List Char) :
    numStop (strElemsRest xs ++ (']' :: rest)) := by
  cases xs with
  | nil =>
    rw [show strElemsRest ([] : List Json) = [] by simp [strElemsRest], List.nil_append]
    show isDigitCh ']' = false
    decide
  | cons x xs =>
    rw [show strElemsRest (x :: xs) = ',' :: (strJson x ++ strElemsRest xs) by
      simp [strElemsRest]]
    show isDigitCh ',' = false
    decide

theorem numStop_fieldsRest (fs : List (String × Json)) (rest : List Char) :
    numStop (strFieldsRest fs ++ ('}' :: rest)) := by
  cases fs with
  | nil =>
    rw [show strFieldsRest ([] : List (String × Json)) = [] by simp [strFieldsRest],
      List.nil_append]
    show isDigitCh '}' = false
    decide
  | cons f fs =>
    obtain ⟨k, v⟩ := f
    rw [show strFieldsRest ((k, v) :: fs) = ',' :: (strLit k ++ (':' :: (strJson v ++
      strFieldsRest fs))) by simp [strFieldsRest]]
    show isDigitCh ',' = false
    decide

/-! Fuel bounds: `parseVal fuel` succeeds on a serialized value whenever `fuel`
is at least the value's `jsonFuel`. -/

mutual

/-- Fuel sufficient for `parseVal` on this value's serialization. -/
def jsonFuel : Json → Nat
  | .null => 1
  | .bool _ => 1
  | .num _ => 1
  | .str _ => 1
  | .arr xs => elemsFuel xs + 1
  | .obj fs => fieldsFuel fs + 1

/-- Fuel sufficient for `parseElems` on these elements. -/
def elemsFuel : List Json → Nat
  | [] => 1
  | x :: xs => jsonFuel x + elemsRestFuel xs + 1

/-- Fuel sufficient for `parseElemsRest` on these elements. -/
def elemsRestFuel : List Json → Nat
  | [] => 1
  | x :: xs => jsonFuel x + elemsRestFuel xs + 1

/-- Fuel sufficient for `parseFields` on these members. -/
def fieldsFuel : List (String × Json) → Nat
  | [] => 1
  | (_, v) :: fs => jsonFuel v + fieldsRestFuel fs + 1

/-- Fuel sufficient for `parseFieldsRest` on these members. -/
def fieldsRestFuel : List (String × Json) → Nat
  | [] => 1
  | (_, v) :: fs => jsonFuel v + fieldsRestFuel fs + 1

end

theorem jsonFuel_pos (j : Json) : 1 ≤ jsonFuel j := by
  cases j <;> simp [jsonFuel]

theorem elemsFuel_pos (xs : List Json) : 1 ≤ elemsFuel xs := by
  cases xs <;> simp [elemsFuel]

theorem elemsRestFuel_pos (xs : List Json) : 1 ≤ elemsRestFuel xs := by
  cases xs <;> simp [elemsRestFuel]

theorem fieldsFuel_pos (fs : List (String × Json)) : 1 ≤ fieldsFuel fs := by
  cases fs with
  | nil => simp [fieldsFuel]
  | cons f fs => obtain ⟨k, v⟩ := f; simp [fieldsFuel]

theorem fieldsRestFuel_pos (fs : List (String × Json)) : 1 ≤ fieldsRestFuel fs := by
  cases fs with
  | nil => simp [fieldsRestFuel]
  | cons f fs => obtain ⟨k, v⟩ := f; simp [fieldsRestFuel]

/-! Step lemmas for the parser at known head characters. -/

theorem pv_str (f : Nat) (r : List Char) :
    parseVal (f + 1) ('"' :: r) = (parseStrAux [] r).map (fun p => (Json.str p.1, p.2)) := rfl

theorem pv_arr (f : Nat) (r : List Char) :
    parseVal (f + 1) ('[' :: r) =
      (match parseElems f r with
       | some (xs, r2) => some (Json.arr xs, r2)
       | none => none) := rfl

theorem pv_obj (f : Nat) (r : List Char) :
    parseVal (f + 1) ('{' :: r) =
      (match parseFields f r with
       | some (fs, r2) => some (Json.obj fs, r2)
       | none => none) := rfl

theorem pv_digit (f : Nat) (c : Char) (r : List Char) (hd : isDigitCh c = true) :
    parseVal (f + 1) (c :: r) =
      some (Json.num (takeDigits (c :: r) 0).1, (takeDigits (c :: r) 0).2) := by
  obtain ⟨hws, hn, ht, hf2, hq, hlb, hob, _, _, _, _⟩ := isDigitCh_facts c hd
  simp only [parseVal]
  rw [skipWs_cons_of c r hws]
  simp only [hn, ht, hf2, hq, hlb, hob, if_false, ite_false, hd, if_true, ite_true]

theorem pe_nil (f : Nat) (r : List Char) : parseElems (f + 1) (']' :: r) = some ([], r) := rfl

theorem pe_step (f : Nat) (c : Char) (r : List Char) (hws : isWsChar c = false)
    (hnb : ¬c = ']') :
    parseElems (f + 1) (c :: r) =
      (match parseVal f (c :: r) with
       | some (x, r2) =>
         match parseElemsRest f r2 with
         | some (xs, r3) => some (x :: xs, r3)
         | none => none
       | none => none) := by
  simp only [parseElems]
  rw [skipWs_cons_of c r hws]
  simp only [hnb, if_false, ite_false]

theorem per_nil (f : Nat) (r : List Char) :
    parseElemsRest (f + 1) (']' :: r) = some ([], r) := rfl

theorem per_cons (f : Nat) (r : List Char) :
    parseElemsRest (f + 1) (',' :: r) =
      (match parseVal f r with
       | some (x, r2) =>
         match parseElemsRest f r2 with
         | some (xs, r3) => some (x :: xs, r3)
         | none => none
       | none => none) := rfl

theorem pf_nil (f : Nat) (r : List Char) : parseFields (f + 1) ('}' :: r) = some ([], r) := rfl

theorem pf_key (f : Nat) (r : List Char) :
    parseFields (f + 1) ('"' :: r) =
      (match parseStrAux [] r with
       | some (k, r2) =>
         match skipWs r2 with
         | ':' :: r3 =>
           (match parseVal f r3 with
            | some (v, r4) =>
              match parseFieldsRest f r4 with
              | some (fs, r5) => some ((k, v) :: fs, r5)
              | none => none
            | none => none)
         | _ => none
       | none => none) := rfl

theorem pfr_nil (f : Nat) (r : List Char) :
    parseFieldsRest (f + 1) ('}' :: r) = some ([], r) := rfl

theorem pfr_cons (f : Nat) (r : List Char) :
    parseFieldsRest (f + 1) (',' :: r) =
      (match skipWs r with
       | '"' :: r2 =>
         (match parseStrAux [] r2 with
          | some (k, r3) =>
            match skipWs r3 with
            | ':' :: r4 =>
              (match parseVal f r4 with
               | some (v, r5) =>
                 match parseFieldsRest f r5 with
                 | some (fs, r6) => some ((k, v) :: fs, r6)
                 | none => none
               | none => none)
            | _ => none
          | none => none)
       | _ => none) := rfl

mutual

theorem parseVal_strJson (j : Json) (fuel : Nat) (hf : jsonFuel j ≤ fuel)
    (rest : List Char) (hr : numStop rest) :
    parseVal fuel (strJson j ++ rest) = some (j, rest) := by
  match fuel, j with
  | 0, j => exact absurd hf (by have := jsonFuel_pos j; omega)
  | f + 1, .null =>
    rw [show strJson .null = ['n', 'u', 'l', 'l'] by simp [strJson]]
    rfl
  | f + 1, .bool true =>
    rw [show strJson (.bool true) = ['t', 'r', 'u', 'e'] by simp [strJson]]
    rfl
  | f + 1, .bool false =>
    rw [show strJson (.bool false) = ['f', 'a', 'l', 's', 'e'] by simp [strJson]]
    rfl
  | f + 1, .num n =>
    rw [show strJson (.num n) = natDigits n by simp [strJson]]
    obtain ⟨d, ds, hnd, hdig⟩ := natDigits_head n
    rw [hnd, List.cons_append, pv_digit f d (ds ++ rest) hdig, ← List.cons_append, ← hnd,
      takeDigits_natDigits n rest hr]
  | f + 1, .str s =>
    rw [show strJson (.str s) = strLit s by simp [strJson], strLit]
    simp only [List.cons_append, List.append_assoc, List.singleton_append, List.nil_append]
    rw [pv_str f _, parseStrAux_strLit s rest]
    rfl
  | f + 1, .arr xs =>
    have hf' : elemsFuel xs ≤ f := by
      have hj : jsonFuel (Json.arr xs) = elemsFuel xs + 1 := by simp [jsonFuel]
      omega
    rw [show strJson (.arr xs) = '[' :: (strElems xs ++ [']']) by simp [strJson]]
    simp only [List.cons_append, List.append_assoc, List.singleton_append, List.nil_append]
    rw [pv_arr f _, parseElems_strElems xs f hf' rest]
  | f + 1, .obj fs =>
    have hf' : fieldsFuel fs ≤ f := by
      have hj : jsonFuel (Json.obj fs) = fieldsFuel fs + 1 := by simp [jsonFuel]
      omega
    rw [show strJson (.obj fs) = '{' :: (strFields fs ++ ['}']) by simp [strJson]]
    simp only [List.cons_append, List.append_assoc, List.singleton_append, List.nil_append]
    rw [pv_obj f _, parseFields_strFields fs f hf' rest]

theorem parseElems_strElems (xs : List Json) (fuel : Nat) (hf : elemsFuel xs ≤ fuel)
    (rest : List Char) :
    parseElems fuel (strElems xs ++ (']' :: rest)) = some (xs, rest) := by
  match fuel, xs with
  | 0, xs => exact absurd hf (by have := elemsFuel_pos xs; omega)
  | f + 1, [] =>
    rw [show strElems ([] : List Json) = [] by simp [strElems], List.nil_append, pe_nil]
  | f + 1, x :: xs =>
    have he : elemsFuel (x :: xs) = jsonFuel x + elemsRestFuel xs + 1 := by simp [elemsFuel]
    have hfx : jsonFuel x ≤ f := by omega
    have hfr : elemsRestFuel xs ≤ f := by omega
    obtain ⟨c, cs, hhd, hws, hrb, _, _⟩ := strJson_head x
    have hp : parseVal f (strJson x ++ (strElemsRest xs ++ (']' :: rest))) =
        some (x, strElemsRest xs ++ (']' :: rest)) :=
      parseVal_strJson x f hfx _ (numStop_elemsRest xs rest)
    have hp2 : parseElemsRest f (strElemsRest xs ++ (']' :: rest)) = some (xs, rest) :=
      parseElemsRest_str xs f hfr rest
    rw [show strElems (x :: xs) = strJson x ++ strElemsRest xs by simp [strElems],
      List.append_assoc, hhd, List.cons_append, pe_step f c _ hws hrb, ← List.cons_append,
      ← hhd]
    simp only [hp, hp2]

theorem parseElemsRest_str (xs : List Json) (fuel : Nat) (hf : elemsRestFuel xs ≤ fuel)
    (rest : List Char) :
    parseElemsRest fuel (strElemsRest xs ++ (']' :: rest)) = some (xs, rest) := by
  match fuel, xs with
  | 0, xs => exact absurd hf (by have := elemsRestFuel_pos xs; omega)
  | f + 1, [] =>
    rw [show strElemsRest ([] : List Json) = [] by simp [strElemsRest], List.nil_append,
      per_nil]
  | f + 1, x :: xs =>
    have he : elemsRestFuel (x :: xs) = jsonFuel x + elemsRestFuel xs + 1 := by
      simp [elemsRestFuel]
    have hfx : jsonFuel x ≤ f := by omega
    have hfr : elemsRestFuel xs ≤ f := by omega
    have hp : parseVal f (strJson x ++ (strElemsRest xs ++ (']' :: rest))) =
        some (x, strElemsRest xs ++ (']' :: rest)) :=
      parseVal_strJson x f hfx _ (numStop_elemsRest xs rest)
    have hp2 : parseElemsRest f (strElemsRest xs ++ (']' :: rest)) = some (xs, rest) :=
      parseElemsRest_str xs f hfr rest
    rw [show strElemsRest (x :: xs) = ',' :: (strJson x ++ strElemsRest xs) by
      simp [strElemsRest], List.cons_append, List.append_assoc, per_cons]
    simp only [hp, hp2]

theorem parseFields_strFields (fs : List (String × Json)) (fuel : Nat)
    (hf : fieldsFuel fs ≤ fuel) (rest : List Char) :
    parseFields fuel (strFields fs ++ ('}' :: rest)) = some (fs, rest) := by
  match fuel, fs with
  | 0, fs => exact absurd hf (by have := fieldsFuel_pos fs; omega)
  | f + 1, [] =>
    rw [show strFields ([] : List (String × Json)) = [] by simp [strFields],
      List.nil_append, pf_nil]
  | f + 1, (k, v) :: fs =>
    have he : fieldsFuel ((k, v) :: fs) = jsonFuel v + fieldsRestFuel fs + 1 := by
      simp [fieldsFuel]
    have hfv : jsonFuel v ≤ f := by omega
    have hfr : fieldsRestFuel fs ≤ f := by omega
    have hp : parseVal f (strJson v ++ (strFieldsRest fs ++ ('}' :: rest))) =
        some (v, strFieldsRest fs ++ ('}' :: rest)) :=
      parseVal_strJson v f hfv _ (numStop_fieldsRest fs rest)
    have hp2 : parseFieldsRest f (strFieldsRest fs ++ ('}' :: rest)) = some (fs, rest) :=
      parseFieldsRest_str fs f hfr rest
    have hstr : parseStrAux [] (escChars k.data ++ ('"' :: (':' :: (strJson v ++
        (strFieldsRest fs ++ ('}' :: rest)))))) =
        some (k, ':' :: (strJson v ++ (strFieldsRest fs ++ ('}' :: rest)))) :=
      parseStrAux_strLit k _
    have hsw : skipWs (':' :: (strJson v ++ (strFieldsRest fs ++ ('}' :: rest)))) =
        ':' :: (strJson v ++ (strFieldsRest fs ++ ('}' :: rest))) :=
      skipWs_cons_of _ _ (by decide)
    rw [show strFields ((k, v) :: fs) = strLit k ++ (':' :: (strJson v ++ strFieldsRest fs))
      by simp [strFields], strLit]
    simp only [List.cons_append, List.append_assoc, List.singleton_append, List.nil_append]
    rw [pf_key]
    simp only [hstr, hsw, hp, hp2]

theorem parseFieldsRest_str (fs : List (String × Json)) (fuel : Nat)
    (hf : fieldsRestFuel fs ≤ fuel) (rest : List Char) :
    parseFieldsRest fuel (strFieldsRest fs ++ ('}' :: rest)) = some (fs, rest) := by
  match fuel, fs with
  | 0, fs => exact absurd hf (by have := fieldsRestFuel_pos fs; omega)
  | f + 1, [] =>
    rw [show strFieldsRest ([] : List (String × Json)) = [] by simp [strFieldsRest],
      List.nil_append, pfr_nil]
  | f + 1, (k, v) :: fs =>
    have he : fieldsRestFuel ((k, v) :: fs) = jsonFuel v + fieldsRestFuel fs + 1 := by
      simp [fieldsRestFuel]
    have hfv : jsonFuel v ≤ f := by omega
    have hfr : fieldsRestFuel fs ≤ f := by omega
    have hp : parseVal f (strJson v ++ (strFieldsRest fs ++ ('}' :: rest))) =
        some (v, strFieldsRest fs ++ ('}' :: rest)) :=
      parseVal_strJson v f hfv _ (numStop_fieldsRest fs rest)
    have hp2 : parseFieldsRest f (strFieldsRest fs ++ ('}' :: rest)) = some (fs, rest) :=
      parseFieldsRest_str fs f hfr rest
    have hstr : parseStrAux [] (escChars k.data ++ ('"' :: (':' :: (strJson v ++
        (strFieldsRest fs ++ ('}' :: rest)))))) =
        some (k, ':' :: (strJson v ++ (strFieldsRest fs ++ ('}' :: rest)))) :=
      parseStrAux_strLit k _
    have hsw : skipWs (':' :: (strJson v ++ (strFieldsRest fs ++ ('}' :: rest)))) =
        ':' :: (strJson v ++ (strFieldsRest fs ++ ('}' :: rest))) :=
      skipWs_cons_of _ _ (by decide)
    have hsw2 : skipWs ('"' :: (escChars k.data ++ ('"' :: (':' :: (strJson v ++
        (strFieldsRest fs ++ ('}' :: rest))))))) =
        '"' :: (escChars k.data ++ ('"' :: (':' :: (strJson v ++
        (strFieldsRest fs ++ ('}' :: rest)))))) :=
      skipWs_cons_of _ _ (by decide)
    rw [show strFieldsRest ((k, v) :: fs) = ',' :: (strLit k ++ (':' :: (strJson v ++
      strFieldsRest fs))) by simp [strFieldsRest], strLit]
    simp only [List.cons_append, List.append_assoc, List.singleton_append, List.nil_append]
    rw [pfr_cons]
    simp only [hsw2, hstr, hsw, hp, hp2]

end

mutual

theorem jsonFuel_le (j : Json) : jsonFuel j ≤ 2 * (strJson j).length := by
  match j with
  | .null => simp [jsonFuel, strJson]
  | .bool b => cases b <;> simp [jsonFuel, strJson]
  | .num n =>
    have h2 : 1 ≤ (natDigits n).length := by
      cases hnd : natDigits n with
      | nil => exact absurd hnd (natDigits_ne_nil n)
      | cons d ds => simp
    simp only [jsonFuel, strJson]
    omega
  | .str s =>
    simp only [jsonFuel, strJson, strLit, List.length_cons, List.length_append,
      List.length_singleton]
    omega
  | .arr xs =>
    have h := elemsFuel_le xs
    simp only [jsonFuel, strJson, List.length_cons, List.length_append,
      List.length_singleton]
    omega
  | .obj fs =>
    have h := fieldsFuel_le fs
    simp only [jsonFuel, strJson, List.length_cons, List.length_append,
      List.length_singleton]
    omega

theorem elemsFuel_le (xs : List Json) : elemsFuel xs ≤ 2 * (strElems xs).length + 3 := by
  match xs with
  | [] => simp [elemsFuel, strElems]
  | x :: xs =>
    have h1 := jsonFuel_le x
    have h2 := elemsRestFuel_le xs
    simp only [elemsFuel, strElems, List.length_append]
    omega

theorem elemsRestFuel_le (xs : List Json) :
    elemsRestFuel xs ≤ 2 * (strElemsRest xs).length + 2 := by
  match xs with
  | [] => simp [elemsRestFuel, strElemsRest]
  | x :: xs =>
    have h1 := jsonFuel_le x
    have h2 := elemsRestFuel_le xs
    simp only [elemsRestFuel, strElemsRest, List.length_cons, List.length_append]
    omega

theorem fieldsFuel_le (fs : List (String × Json)) :
    fieldsFuel fs ≤ 2 * (strFields fs).length + 3 := by
  match fs with
  | [] => simp [fieldsFuel, strFields]
  | (k, v) :: fs =>
    have h1 := jsonFuel_le v
    have h2 := fieldsRestFuel_le fs
    simp only [fieldsFuel, strFields, List.length_cons, List.length_append]
    omega

theorem fieldsRestFuel_le (fs : List (String × Json)) :
    fieldsRestFuel fs ≤ 2 * (strFieldsRest fs).length + 2 := by
  match fs with
  | [] => simp [fieldsRestFuel, strFieldsRest]
  | (k, v) :: fs =>
    have h1 := jsonFuel_le v
    have h2 := fieldsRestFuel_le fs
    simp only [fieldsRestFuel, strFieldsRest, List.length_cons, List.length_append]
    omega

end

/-- The central serialization law: parsing the serialization of any JSON value
recovers exactly that value. -/
theorem parseJson_strJson (j : Json) : parseJson (String.mk (strJson j)) = some j := by
  have hf : jsonFuel j ≤ 2 * (strJson j).length + 2 := by
    have := jsonFuel_le j
    omega
  have hp : parseVal (2 * (strJson j).length + 2) (strJson j ++ []) = some (j, []) :=
    parseVal_strJson j _ hf [] trivial
  rw [List.append_nil] at hp
  simp only [parseJson]
  rw [show (String.mk (strJson j)).length = (strJson j).length from rfl, hp]
  rfl

/-! ## Note serialization and the persistence layer -/

/-- The string form of each `Category` member, from `src/types.ts`. -/
def catToString : Category → String
  | .general => "General"
  | .personal => "Personal"
  | .work => "Work"
  | .ideas => "Ideas"
  | .urgent => "Urgent"

/-- Recognize a category string. -/
def catFromString (s : String) : Option Category :=
  if s = "General" then some .general
  else if s = "Personal" then some .personal
  else if s = "Work" then some .work
  else if s = "Ideas" then some .ideas
  else if s = "Urgent" then some .urgent
  else none

theorem catFromString_catToString (c : Category) : catFromString (catToString c) = some c := by
  cases c <;> rfl

/-- JSON encoding of one note, fields in the order of the `Note` interface (the
order `JSON.stringify` emits for objects built by the application). -/
def encodeNote (n : Note) : Json :=
  .obj [("id", .str n.id), ("title", .str n.title), ("content", .str n.content),
    ("category", .str (catToString n.category)), ("updatedAt", .num n.updatedAt),
    ("isFavorite", .bool n.isFavorite)]

/-- JSON encoding of the whole collection (the persisted blob's value). -/
def encodeNotes (ns : List Note) : Json := .arr (ns.map encodeNote)

/-- Decoder witnessing that every note field is recoverable from the encoding. -/
def decodeNote (j : Json) : Option Note :=
  match j with
  | .obj fields =>
    match fields with
    | [(k1, .str i), (k2, .str t), (k3, .str c), (k4, .str cat), (k5, .num u),
        (k6, .bool fav)] =>
      if k1 = "id" ∧ k2 = "title" ∧ k3 = "content" ∧ k4 = "category" ∧ k5 = "updatedAt" ∧
          k6 = "isFavorite" then
        (catFromString cat).map (fun cc => ⟨i, t, c, cc, u, fav⟩)
      else none
    | _ => none
  | _ => none

/-- Decode a list of encoded notes. -/
def decodeNoteList : List Json → Option (List Note)
  | [] => some []
  | x :: xs =>
    match decodeNote x, decodeNoteList xs with
    | some n, some ns => some (n :: ns)
    | _, _ => none

/-- Decode a whole collection. -/
def decodeNotes : Json → Option (List Note)
  | .arr xs => decodeNoteList xs
  | _ => none

theorem decodeNote_encodeNote (n : Note) : decodeNote (encodeNote n) = some n := by
  obtain ⟨i, t, c, cat, u, fav⟩ := n
  simp [encodeNote, decodeNote, catFromString_catToString]

theorem decodeNoteList_map (ns : List Note) :
    decodeNoteList (ns.map encodeNote) = some ns := by
  induction ns with
  | nil => rfl
  | cons n ns ih => simp [decodeNoteList, decodeNote_encodeNote, ih]

theorem decodeNotes_encodeNotes (ns : List Note) :
    decodeNotes (encodeNotes ns) = some ns := by
  simp [decodeNotes, encodeNotes, decodeNoteList_map]

/-- The `useEffect` persistence write (`src/App.tsx` lines 39-41):
`localStorage.setItem('notes-app-data', JSON.stringify(notes))`. -/
def saveNotes (ns : List Note) : String := String.mk (strJson (encodeNotes ns))

/-- The `useState` initializer (`src/App.tsx` lines 27-30):
`saved ? JSON.parse(saved) : []`.  `saved = none` models an absent key; an
empty stored string is falsy in JavaScript and also yields `[]`.  Otherwise
`JSON.parse(saved)` runs with NO try/catch and NO shape validation: a thrown
`SyntaxError` is modelled as `Except.error ()`, and a successful parse returns
the raw parsed value, whatever it is. -/
def loadNotes (saved : Option String) : Except Unit Json :=
  match saved with
  | none => .ok (Json.arr [])
  | some s =>
    if s = "" then .ok (Json.arr [])
    else
      match parseJson s with
      | some j => .ok j
      | none => .error ()

theorem saveNotes_ne_empty (ns : List Note) : saveNotes ns ≠ "" := by
  intro h
  have hd : strJson (encodeNotes ns) = [] := congrArg String.data h
  rw [show strJson (encodeNotes ns) = '[' :: (strElems (ns.map encodeNote) ++ [']']) by
    simp [strJson, encodeNotes]] at hd
  cases hd

theorem loadNotes_saveNotes (ns : List Note) :
    loadNotes (some (saveNotes ns)) = .ok (encodeNotes ns) := by
  simp only [loadNotes]
  rw [if_neg (saveNotes_ne_empty ns)]
  rw [show parseJson (saveNotes ns) = some (encodeNotes ns) from
    parseJson_strJson (encodeNotes ns)]

/-! ## AI assist client (`src/services/geminiService.ts`) -/

/-- The empty `AIResponse` (the `{}` object returned on guard or error). -/
def emptyAIResponse : AIResponse := ⟨none, none, none⟩

/-- `getSmartSuggestions` (lines 7-37): guard `!content || content.length < 10`
returns `{}` without calling out; the remote call (abstracted as `remote`) has
its result returned on success, and any thrown error is caught and swallowed
into `{}`.  The second component records whether an outbound call was made. -/
def getSmartSuggestions (content : String) (remote : String → Except String AIResponse) :
    AIResponse × Bool :=
  if content = "" || content.length < 10 then (emptyAIResponse, false)
  else
    match remote content with
    | .ok r => (r, true)
    | .error _ => (emptyAIResponse, true)

/-- `enhanceNote` (lines 39-50): returns the rewritten text, or the original
content unchanged on failure. -/
def enhanceNote (content : String) (remote : String → Except String String) : String :=
  match remote content with
  | .ok r => r
  | .error _ => content

/-! ## Editor session (`src/App.tsx`): draft state, AI flow, busy flag -/

/-- What kind of AI call is in flight. -/
inductive AIReqKind where
  | suggest
  | enhance
deriving DecidableEq, Repr

/-- Editor-session state: the draft being edited (`editingNote`), the busy
flag (`isAILoading`), and the multiset of outstanding AI calls
(`pendingCalls`, a ghost component tracking issued-but-uncompleted calls). -/
structure EditorState where
  editingNote : Option Note
  isAILoading : Bool
  pendingCalls : List AIReqKind
deriving DecidableEq, Repr

/-- User and completion events affecting the editor session. -/
inductive EditorEv where
  | openCreate (t : Nat)
  | openEdit (n : Note)
  | close
  | setTitle (s : String)
  | setContent (s : String)
  | setCategory (c : Category)
  | toggleFavDraft
  | clickSuggest
  | clickEnhance
  | suggestDone (r : AIResponse)
  | enhanceDone (s : String)
deriving DecidableEq, Repr

/-- `handleAddNote` (lines 63-73): a fresh draft whose id is
`Date.now().toString()` at creation time `t`. -/
def mkDraft (t : Nat) : Note :=
  ⟨natToString t, "", "", .general, t, false⟩

/-- The `disabled` condition of the Smart Suggest / AI Enhance buttons
(lines 385-399): `isAILoading || !editingNote.content` (no button exists when
no draft is open). -/
def aiButtonsDisabled (st : EditorState) : Bool :=
  st.isAILoading ||
    (match st.editingNote with
     | some n => n.content = ""
     | none => true)

/-- The draft update applied when an AI suggestion response arrives
(lines 109-113): `title: prev.title || suggestions.title || ''`,
`category: suggestions.suggestedCategory || prev.category`. -/
def applySuggestions (n : Note) (sug : AIResponse) : Note :=
  { n with
    title := if n.title = "" then sug.title.getD "" else n.title,
    category := sug.suggestedCategory.getD n.category }

/-- One editor-session step.  A click on a disabled button is ignored by the
DOM, so `clickSuggest`/`clickEnhance` are no-ops when `aiButtonsDisabled`;
otherwise the handler sets the busy flag and issues the call.  A completion
event applies the response via the `setEditingNote(prev => ...)` updater
(`prev` may have become `null` if the modal was closed) and clears the busy
flag in the `finally` block. -/
def stepEditor (st : EditorState) (ev : EditorEv) : EditorState :=
  match ev with
  | .openCreate t => { st with editingNote := some (mkDraft t) }
  | .openEdit n => { st with editingNote := some n }
  | .close => { st with editingNote := none }
  | .setTitle s => { st with editingNote := st.editingNote.map (fun n => { n with title := s }) }
  | .setContent s =>
    { st with editingNote := st.editingNote.map (fun n => { n with content := s }) }
  | .setCategory c =>
    { st with editingNote := st.editingNote.map (fun n => { n with category := c }) }
  | .toggleFavDraft =>
    { st with editingNote := st.editingNote.map (fun n =>
        { n with isFavorite := !n.isFavorite }) }
  | .clickSuggest =>
    if aiButtonsDisabled st then st
    else { st with isAILoading := true, pendingCalls := st.pendingCalls ++ [.suggest] }
  | .clickEnhance =>
    if aiButtonsDisabled st then st
    else { st with isAILoading := true, pendingCalls := st.pendingCalls ++ [.enhance] }
  | .suggestDone r =>
    match st.pendingCalls with
    | [] => st
    | _ :: rest =>
      { st with
        editingNote := st.editingNote.map (fun n => applySuggestions n r),
        isAILoading := false,
        pendingCalls := rest }
  | .enhanceDone s =>
    match st.pendingCalls with
    | [] => st
    | _ :: rest =>
      { st with
        editingNote := st.editingNote.map (fun n => { n with content := s }),
        isAILoading := false,
        pendingCalls := rest }

/-- The initial editor state: no modal open, not loading. -/
def initEditor : EditorState := ⟨none, false, []⟩

/-- Run an event trace from the initial editor state. -/
def runEditor (evs : List EditorEv) : EditorState := evs.foldl stepEditor initEditor

/-! ## Repository lifecycle machine (id allocation, deletion) -/

/-- Repository events, each with the clock readings it observes.
`createSave tC tS ...` is `handleAddNote` at time `tC` (draft id and
`updatedAt` are `Date.now()`), user edits of the draft fields, then
`handleSaveNote` at time `tS`.  `editSave k ...` is `handleEditNote` on the
`k`-th note of the collection followed by `handleSaveNote`.  `remove` is a
confirmed `handleDeleteNote`; `toggle` is `toggleFavorite`. -/
inductive RepoEv where
  | createSave (tCreate tSave : Nat) (title content : String) (cat : Category) (fav : Bool)
  | editSave (k : Nat) (title content : String) (cat : Category) (fav : Bool) (tSave : Nat)
  | remove (i : String)
  | toggle (i : String)
deriving DecidableEq, Repr

/-- Repository state: the collection, plus a ghost log of every id that
belonged to some note at the moment that note was deleted. -/
structure RepoState where
  notes : List Note
  deletedIds : List String
deriving DecidableEq, Repr

/-- One repository step. -/
def stepRepo (st : RepoState) (ev : RepoEv) : RepoState :=
  match ev with
  | .createSave tC tS ti co cat fav =>
    { st with
      notes := upsertNote st.notes
        { mkDraft tC with title := ti, content := co, category := cat, isFavorite := fav }
        tS }
  | .editSave k ti co cat fav tS =>
    match st.notes[k]? with
    | some n =>
      { st with
        notes := upsertNote st.notes
          { n with title := ti, content := co, category := cat, isFavorite := fav } tS }
    | none => st
  | .remove i =>
    { notes := st.notes.filter (fun n => n.id ≠ i),
      deletedIds :=
        if st.notes.any (fun n => n.id = i) then st.deletedIds ++ [i] else st.deletedIds }
  | .toggle i => { st with notes := toggleFav st.notes i }

/-- The repository at process start of a fresh profile: empty. -/
def initRepo : RepoState := ⟨[], []⟩

/-- Run a trace of repository events from the empty repository. -/
def runRepo (evs : List RepoEv) : RepoState := evs.foldl stepRepo initRepo

/-- The clock readings at which drafts were created along a trace. -/
def creationTimes (evs : List RepoEv) : List Nat :=
  evs.filterMap (fun ev =>
    match ev with
    | .createSave tC _ _ _ _ _ => some tC
    | _ => none)

/-- The ids of a collection. -/
def idsOf (ns : List Note) : List String := ns.map (fun n => n.id)

theorem upsert_ids_of_mem (ns : List Note) (u : Note) (t : Nat)
    (h : ns.any (fun n => n.id = u.id) = true) :
    idsOf (upsertNote ns u t) = idsOf ns := by
  rw [upsertNote, if_pos h, idsOf, idsOf, List.map_map]
  apply List.map_congr_left
  intro n _
  by_cases hid : n.id = u.id
  · simp [hid]
  · simp [hid]

theorem upsert_ids_of_not_mem (ns : List Note) (u : Note) (t : Nat)
    (h : ns.any (fun n => n.id = u.id) = false) :
    idsOf (upsertNote ns u t) = idsOf ns ++ [u.id] := by
  rw [upsertNote, if_neg (by simp [h]), idsOf, idsOf, List.map_append]
  rfl

theorem toggle_ids (ns : List Note) (i : String) : idsOf (toggleFav ns i) = idsOf ns := by
  rw [toggleFav, idsOf, idsOf, List.map_map]
  apply List.map_congr_left
  intro n _
  by_cases hid : n.id = i
  · simp [hid]
  · simp [hid]

theorem upsert_ids_nodup (ns : List Note) (u : Note) (t : Nat)
    (h : (idsOf ns).Nodup) : (idsOf (upsertNote ns u t)).Nodup := by
  cases hany : ns.any (fun n => n.id = u.id) with
  | true => rw [upsert_ids_of_mem ns u t hany]; exact h
  | false =>
    rw [upsert_ids_of_not_mem ns u t hany]
    have hnm : u.id ∉ idsOf ns := by
      intro hm
      obtain ⟨n, hn, hid⟩ := List.mem_map.mp hm
      have : ns.any (fun n => n.id = u.id) = true :=
        List.any_eq_true.mpr ⟨n, hn, by simp [hid]⟩
      rw [hany] at this
      cases this
    simp [List.nodup_append, h, hnm]

theorem filter_ids_nodup (ns : List Note) (p : Note → Bool)
    (h : (idsOf ns).Nodup) : (idsOf (ns.filter p)).Nodup := by
  exact h.sublist (List.Sublist.map _ (List.filter_sublist ns))

theorem stepRepo_ids_nodup (st : RepoState) (ev : RepoEv)
    (h : (idsOf st.notes).Nodup) : (idsOf (stepRepo st ev).notes).Nodup := by
  cases ev with
  | createSave tC tS ti co cat fav => exact upsert_ids_nodup _ _ _ h
  | editSave k ti co cat fav tS =>
    simp only [stepRepo]
    split
    · exact upsert_ids_nodup _ _ _ h
    · exact h
  | remove i => exact filter_ids_nodup _ _ h
  | toggle i => rw [stepRepo, toggle_ids]; exact h

theorem runRepo_ids_nodup_aux (evs : List RepoEv) :
    ∀ st : RepoState, (idsOf st.notes).Nodup → (idsOf (evs.foldl stepRepo st).notes).Nodup := by
  induction evs with
  | nil => intro st h; simpa using h
  | cons ev evs ih =>
    intro st h
    rw [List.foldl_cons]
    exact ih _ (stepRepo_ids_nodup st ev h)

/-- Every id in the collection or in the deleted-ids log. -/
def allIds (st : RepoState) : List String := idsOf st.notes ++ st.deletedIds

theorem upsert_ids_sub (ns : List Note) (u : Note) (t : Nat) :
    ∀ i ∈ idsOf (upsertNote ns u t), i ∈ idsOf ns ++ [u.id] := by
  intro i hi
  cases hany : ns.any (fun n => n.id = u.id) with
  | true =>
    rw [upsert_ids_of_mem ns u t hany] at hi
    exact List.mem_append.mpr (Or.inl hi)
  | false =>
    rw [upsert_ids_of_not_mem ns u t hany] at hi
    exact hi

theorem stepRepo_origin (st : RepoState) (ev : RepoEv) :
    ∀ i ∈ allIds (stepRepo st ev),
      i ∈ allIds st ++ (creationTimes [ev]).map natToString := by
  intro i hi
  refine List.mem_append.mpr ?_
  cases ev with
  | createSave tC tS ti co cat fav =>
    simp only [allIds, stepRepo] at hi
    rcases List.mem_append.mp hi with hn | hd
    · have hsub := upsert_ids_sub st.notes _ tS i hn
      rcases List.mem_append.mp hsub with h1 | h2
      · exact Or.inl (List.mem_append.mpr (Or.inl h1))
      · refine Or.inr ?_
        have hieq : i = natToString tC := by simpa [mkDraft] using h2
        simp [creationTimes, hieq]
    · exact Or.inl (List.mem_append.mpr (Or.inr hd))
  | editSave k ti co cat fav tS =>
    cases hk : st.notes[k]? with
    | some n =>
      simp only [allIds, stepRepo, hk] at hi
      rcases List.mem_append.mp hi with hn | hd
      · have hsub := upsert_ids_sub st.notes _ tS i hn
        rcases List.mem_append.mp hsub with h1 | h2
        · exact Or.inl (List.mem_append.mpr (Or.inl h1))
        · have hnmem : n ∈ st.notes := List.getElem?_mem hk
          have hieq : i = n.id := by simpa using h2
          exact Or.inl (List.mem_append.mpr (Or.inl
            (hieq ▸ List.mem_map.mpr ⟨n, hnmem, rfl⟩)))
      · exact Or.inl (List.mem_append.mpr (Or.inr hd))
    | none =>
      simp only [allIds, stepRepo, hk] at hi
      exact Or.inl hi
  | remove j =>
    simp only [allIds, stepRepo] at hi
    rcases List.mem_append.mp hi with hn | hd
    · refine Or.inl (List.mem_append.mpr (Or.inl ?_))
      rw [idsOf] at hn ⊢
      exact (List.Sublist.map (fun n => n.id) (List.filter_sublist st.notes)).subset hn
    · cases hany : st.notes.any (fun n => n.id = j) with
      | true =>
        rw [if_pos hany] at hd
        rcases List.mem_append.mp hd with h1 | h2
        · exact Or.inl (List.mem_append.mpr (Or.inr h1))
        · have hij : i = j := by simpa using h2
          obtain ⟨n, hn, hid⟩ := List.any_eq_true.mp hany
          have : j = n.id := by
            have hx : n.id = j := by simpa using hid
            exact hx.symm
          refine Or.inl (List.mem_append.mpr (Or.inl ?_))
          rw [hij, this, idsOf]
          exact List.mem_map.mpr ⟨n, hn, rfl⟩
      | false =>
        rw [if_neg (by simp [hany])] at hd
        exact Or.inl (List.mem_append.mpr (Or.inr hd))
  | toggle j =>
    simp only [allIds, stepRepo, toggle_ids] at hi
    exact Or.inl hi

theorem runRepo_origin_aux (evs : List RepoEv) :
    ∀ st : RepoState, ∀ i ∈ allIds (evs.foldl stepRepo st),
      i ∈ allIds st ++ (creationTimes evs).map natToString := by
  induction evs with
  | nil => intro st i hi; simpa [creationTimes] using hi
  | cons ev evs ih =>
    intro st i hi
    rw [List.foldl_cons] at hi
    have h1 := ih (stepRepo st ev) i hi
    rcases List.mem_append.mp h1 with h2 | h2
    · have h3 := stepRepo_origin st ev i h2
      rcases List.mem_append.mp h3 with h4 | h4
      · exact List.mem_append.mpr (Or.inl h4)
      · refine List.mem_append.mpr (Or.inr ?_)
        obtain ⟨t, ht, rfl⟩ := List.mem_map.mp h4
        refine List.mem_map.mpr ⟨t, ?_, rfl⟩
        simp only [creationTimes, List.filterMap_cons] at ht ⊢
        cases ev <;> simp_all
    · refine List.mem_append.mpr (Or.inr ?_)
      obtain ⟨t, ht, rfl⟩ := List.mem_map.mp h2
      refine List.mem_map.mpr ⟨t, ?_, rfl⟩
      simp only [creationTimes, List.filterMap_cons]
      cases ev <;> simp_all [creationTimes]

theorem runRepo_deleted_origin (evs : List RepoEv) :
    ∀ i ∈ (runRepo evs).deletedIds, i ∈ (creationTimes evs).map natToString := by
  intro i hi
  have h := runRepo_origin_aux evs initRepo i
    (List.mem_append.mpr (Or.inr hi))
  simpa [allIds, initRepo, idsOf] using h

/-! ## Editor-session invariant: at most one AI call in flight -/

/-- The busy-flag invariant: never more than one outstanding AI call, and the
flag is clear exactly when nothing is outstanding. -/
def edInv (st : EditorState) : Prop :=
  st.pendingCalls.length ≤ 1 ∧ (st.isAILoading = false → st.pendingCalls = [])

theorem stepEditor_inv (st : EditorState) (ev : EditorEv) (h : edInv st) :
    edInv (stepEditor st ev) := by
  obtain ⟨h1, h2⟩ := h
  cases ev with
  | openCreate t => exact ⟨h1, h2⟩
  | openEdit n => exact ⟨h1, h2⟩
  | close => exact ⟨h1, h2⟩
  | setTitle s => exact ⟨h1, h2⟩
  | setContent s => exact ⟨h1, h2⟩
  | setCategory c => exact ⟨h1, h2⟩
  | toggleFavDraft => exact ⟨h1, h2⟩
  | clickSuggest =>
    simp only [stepEditor]
    split
    · exact ⟨h1, h2⟩
    · next hdis =>
      have hload : st.isAILoading = false := by
        cases hl : st.isAILoading
        · rfl
        · exact absurd (by simp [aiButtonsDisabled, hl]) hdis
      have hp := h2 hload
      refine ⟨by simp [hp], ?_⟩
      intro hfalse
      simp at hfalse
  | clickEnhance =>
    simp only [stepEditor]
    split
    · exact ⟨h1, h2⟩
    · next hdis =>
      have hload : st.isAILoading = false := by
        cases hl : st.isAILoading
        · rfl
        · exact absurd (by simp [aiButtonsDisabled, hl]) hdis
      have hp := h2 hload
      refine ⟨by simp [hp], ?_⟩
      intro hfalse
      simp at hfalse
  | suggestDone r =>
    cases hp : st.pendingCalls with
    | nil =>
      simp only [stepEditor, hp]
      exact ⟨by simp [hp], fun _ => hp⟩
    | cons a rest =>
      rw [hp] at h1
      simp only [List.length_cons] at h1
      have hrest : rest = [] := List.length_eq_zero.mp (by omega)
      simp only [stepEditor, hp]
      exact ⟨by simp [hrest], fun _ => hrest⟩
  | enhanceDone s =>
    cases hp : st.pendingCalls with
    | nil =>
      simp only [stepEditor, hp]
      exact ⟨by simp [hp], fun _ => hp⟩
    | cons a rest =>
      rw [hp] at h1
      simp only [List.length_cons] at h1
      have hrest : rest = [] := List.length_eq_zero.mp (by omega)
      simp only [stepEditor, hp]
      exact ⟨by simp [hrest], fun _ => hrest⟩

theorem runEditor_inv (evs : List EditorEv) : edInv (runEditor evs) := by
  rw [runEditor]
  have hinit : edInv initEditor := ⟨by simp [initEditor], fun _ => rfl⟩
  have haux : ∀ st : EditorState, edInv st → edInv (evs.foldl stepEditor st) := by
    induction evs with
    | nil => intro st h; simpa using h
    | cons ev evs ih =>
      intro st h
      rw [List.foldl_cons]
      exact ih _ (stepEditor_inv st ev h)
  exact haux initEditor hinit

/-! ## Substring characterization for the query engine -/

theorem hasSub_nil_needle (h : List Char) : hasSub h [] = true := by
  cases h <;> simp [hasSub]

theorem isPrefixOf_exists (l1 : List Char) :
    ∀ l2 : List Char, l1.isPrefixOf l2 = true ↔ ∃ t, l1 ++ t = l2 := by
  induction l1 with
  | nil =>
    intro l2
    simp [List.isPrefixOf]
  | cons a l1 ih =>
    intro l2
    cases l2 with
    | nil => simp [List.isPrefixOf]
    | cons b l2 =>
      rw [show (a :: l1).isPrefixOf (b :: l2) = (a == b && l1.isPrefixOf l2) from rfl]
      simp only [Bool.and_eq_true, beq_iff_eq, ih, List.cons_append, List.cons.injEq]
      constructor
      · rintro ⟨rfl, t, rfl⟩
        exact ⟨t, rfl, rfl⟩
      · rintro ⟨t, rfl, rfl⟩
        exact ⟨rfl, t, rfl⟩

theorem hasSub_iff (h needle : List Char) :
    hasSub h needle = true ↔ ∃ s t, h = s ++ needle ++ t := by
  induction h with
  | nil =>
    simp only [hasSub, List.isEmpty_iff]
    constructor
    · rintro rfl
      exact ⟨[], [], rfl⟩
    · rintro ⟨s, t, hst⟩
      rcases List.append_eq_nil.mp (List.append_eq_nil.mp hst.symm).1 with ⟨-, h2⟩
      exact h2
  | cons c t ih =>
    simp only [hasSub, Bool.or_eq_true, ih, isPrefixOf_exists]
    constructor
    · rintro (hpre | ⟨s, t', rfl⟩)
      · obtain ⟨r, hr⟩ := hpre
        exact ⟨[], r, by simp [← hr]⟩
      · exact ⟨c :: s, t', by simp⟩
    · rintro ⟨s, t', hst⟩
      cases s with
      | nil =>
        left
        exact ⟨t', by simpa using hst.symm⟩
      | cons a s' =>
        right
        simp only [List.cons_append, List.cons.injEq] at hst
        exact ⟨s', t', hst.2⟩

/-! ## Claim theorems -/

/-- C1 counterexample: the stored value `"x"` is present and malformed, yet
the load operation does not yield the empty collection — the `useState`
initializer runs `JSON.parse("x")` with no try/catch, so it throws
(modelled as `Except.error ()`). -/
theorem load_malformed_counterexample : loadNotes (some "x") = Except.error () := rfl

/-- C1 (amended): load yields the empty collection when the stored value is
absent or the empty string; a present non-empty value is handed to
`JSON.parse` unvalidated, so a parseable blob is returned as-is and an
unparseable one makes load fail (throw) rather than yielding the empty
collection. -/
theorem load_amended :
    loadNotes none = Except.ok (Json.arr []) ∧
    loadNotes (some "") = Except.ok (Json.arr []) ∧
    (∀ s : String, s ≠ "" →
      loadNotes (some s) =
        (match parseJson s with
         | some j => Except.ok j
         | none => Except.error ())) := by
  refine ⟨rfl, rfl, ?_⟩
  intro s hs
  simp only [loadNotes, if_neg hs]

/-- C2: while the busy flag is set, clicking Smart Suggest or AI Enhance is
ignored (the buttons are disabled): no AI call is issued and the state — in
particular the draft — is unchanged; consequently along every event trace at
most one AI call is in flight. -/
theorem ai_single_flight :
    (∀ st : EditorState, st.isAILoading = true →
      stepEditor st EditorEv.clickSuggest = st ∧ stepEditor st EditorEv.clickEnhance = st) ∧
    (∀ evs : List EditorEv, (runEditor evs).pendingCalls.length ≤ 1) := by
  constructor
  · intro st h
    constructor <;> simp [stepEditor, aiButtonsDisabled, h]
  · intro evs
    exact (runEditor_inv evs).1

/-- C3: `handleSaveNote` at time `T` — if some note shares the saved note's
id, every note with that id is replaced by the saved note with `updatedAt`
stamped to `T`, every other position is unchanged, and the length is
unchanged; otherwise the stamped note is appended, growing the collection by
one. -/
theorem upsert_spec (prev : List Note) (u : Note) (T : Nat) :
    (upsertNote prev u T).length =
      (if prev.any (fun n => n.id = u.id) then prev.length else prev.length + 1) ∧
    (prev.any (fun n => n.id = u.id) = true →
      ∀ i : Nat, (upsertNote prev u T)[i]? =
        (prev[i]?).map (fun n => if n.id = u.id then { u with updatedAt := T } else n)) ∧
    (prev.any (fun n => n.id = u.id) = false →
      upsertNote prev u T = prev ++ [{ u with updatedAt := T }]) := by
  refine ⟨?_, ?_, ?_⟩
  · rw [upsertNote]
    split <;> simp
  · intro h i
    rw [upsertNote, if_pos h, List.getElem?_map]
  · intro h
    rw [upsertNote, if_neg (by simp [h])]

/-- Scenario check from the spec (§8.7): replacing note "1" at T = 200. -/
theorem upsert_scenario :
    upsertNote [⟨"1", "Groceries", "buy milk", .personal, 100, false⟩]
      ⟨"1", "Groceries", "buy milk and eggs", .personal, 100, false⟩ 200 =
      [⟨"1", "Groceries", "buy milk and eggs", .personal, 200, false⟩] := by decide

/-- C4: the query engine returns exactly the notes passing the category
filter (sentinel All, or equal category) and the search test (empty term, or
case-insensitive substring of title or content) — stated as a membership
characterization plus a permutation with the filtered collection (none
omitted, none extra). -/
theorem filtered_membership (notes : List Note) (q : String) (catF : CategoryFilter) :
    (∀ n : Note, n ∈ filteredNotes notes q catF ↔
      n ∈ notes ∧ (catF = .all ∨ catF = .only n.category) ∧
        (q = "" ∨ (∃ s t, lowerL n.title = s ++ lowerL q ++ t) ∨
          (∃ s t, lowerL n.content = s ++ lowerL q ++ t))) ∧
    List.Perm (filteredNotes notes q catF) (notes.filter (noteMatches q catF)) := by
  constructor
  · intro n
    rw [filteredNotes, List.mem_mergeSort, List.mem_filter]
    constructor
    · rintro ⟨hmem, hmatch⟩
      simp only [noteMatches, Bool.and_eq_true, Bool.or_eq_true, hasSub_iff] at hmatch
      refine ⟨hmem, ?_, ?_⟩
      · cases catF with
        | all => exact Or.inl rfl
        | only c =>
          have hc : n.category = c := by simpa using hmatch.2
          exact Or.inr (by rw [hc])
      · rcases hmatch.1 with h | h
        · exact Or.inr (Or.inl h)
        · exact Or.inr (Or.inr h)
    · rintro ⟨hmem, hcat, hsearch⟩
      refine ⟨hmem, ?_⟩
      simp only [noteMatches, Bool.and_eq_true, Bool.or_eq_true, hasSub_iff]
      constructor
      · rcases hsearch with rfl | h | h
        · exact Or.inl ⟨[], lowerL n.title, by simp [lowerL]⟩
        · exact Or.inl h
        · exact Or.inr h
      · rcases hcat with rfl | rfl
        · rfl
        · simp
  · exact List.mergeSort_perm _ _

/-- C5: the query engine's output is sorted descending by `updatedAt`: for
any result A appearing before a result B, B.updatedAt ≤ A.updatedAt. -/
theorem filtered_sorted (notes : List Note) (q : String) (catF : CategoryFilter) :
    List.Pairwise (fun a b => b.updatedAt ≤ a.updatedAt) (filteredNotes notes q catF) := by
  rw [filteredNotes]
  have h := @List.sorted_mergeSort Note
    (fun a b : Note => decide (b.updatedAt ≤ a.updatedAt))
    (fun a b c hab hbc => by
      simp only [decide_eq_true_eq] at *
      omega)
    (fun a b => by
      simp only [Bool.or_eq_true, decide_eq_true_eq]
      omega)
    (notes.filter (noteMatches q catF))
  exact h.imp (fun hab => by simpa using hab)

/-- C6: for every sequence of upserts into the empty repository, writing the
resulting collection to the storage slot and loading it back reproduces the
very value that was saved, and every field of every note is recovered exactly
by the decoder. -/
theorem storage_roundtrip (ops : List (Note × Nat)) :
    loadNotes (some (saveNotes (ops.foldl (fun acc p => upsertNote acc p.1 p.2) []))) =
      Except.ok (encodeNotes (ops.foldl (fun acc p => upsertNote acc p.1 p.2) [])) ∧
    decodeNotes (encodeNotes (ops.foldl (fun acc p => upsertNote acc p.1 p.2) [])) =
      some (ops.foldl (fun acc p => upsertNote acc p.1 p.2) []) :=
  ⟨loadNotes_saveNotes _, decodeNotes_encodeNotes _⟩

/-- C7: on a successful suggestion the draft title is overwritten only when it
was empty, the category is overwritten whenever a suggestion was returned,
and nothing else of the draft changes; a failed request yields the empty
response, whose application leaves title and category exactly as they were. -/
theorem ai_suggestion_effects :
    (∀ (n : Note) (sug : AIResponse),
      (n.title ≠ "" → (applySuggestions n sug).title = n.title) ∧
      (n.title = "" → (applySuggestions n sug).title = sug.title.getD "") ∧
      (∀ c : Category, sug.suggestedCategory = some c →
        (applySuggestions n sug).category = c) ∧
      (sug.suggestedCategory = none → (applySuggestions n sug).category = n.category) ∧
      (applySuggestions n sug).id = n.id ∧
      (applySuggestions n sug).content = n.content ∧
      (applySuggestions n sug).updatedAt = n.updatedAt ∧
      (applySuggestions n sug).isFavorite = n.isFavorite) ∧
    (∀ (content : String) (remote : String → Except String AIResponse) (e : String),
      remote content = Except.error e →
        (getSmartSuggestions content remote).1 = emptyAIResponse) ∧
    (∀ n : Note, (applySuggestions n emptyAIResponse).title = n.title ∧
      (applySuggestions n emptyAIResponse).category = n.category) := by
  refine ⟨?_, ?_, ?_⟩
  · intro n sug
    refine ⟨?_, ?_, ?_, ?_, rfl, rfl, rfl, rfl⟩
    · intro h
      simp [applySuggestions, h]
    · intro h
      simp [applySuggestions, h]
    · intro c h
      simp [applySuggestions, h]
    · intro h
      simp [applySuggestions, h]
  · intro content remote e h
    rw [getSmartSuggestions]
    split
    · rfl
    · rw [h]
  · intro n
    constructor
    · by_cases h : n.title = "" <;> simp [applySuggestions, emptyAIResponse, h]
    · simp [applySuggestions, emptyAIResponse]

/-- C8: content shorter than the 10-character threshold (the empty string
included) makes `getSmartSuggestions` return the empty result without any
outbound call. -/
theorem suggest_short_circuit (content : String)
    (remote : String → Except String AIResponse) (h : content.length < 10) :
    getSmartSuggestions content remote = (emptyAIResponse, false) := by
  rw [getSmartSuggestions, if_pos]
  simp [h]

/-- Witness for C8 at the concrete five-character content "short". -/
theorem suggest_short_circuit_witness :
    getSmartSuggestions "short"
      (fun _ => Except.ok ⟨some "T", some "S", some Category.work⟩) =
      (emptyAIResponse, false) :=
  suggest_short_circuit "short" _ (by decide)

/-- C9 counterexample: two draft creations that observe the same
`Date.now()` reading (5).  The first created note (id "5") is deleted, then a
new note is created at the same millisecond: the new note is assigned id
`natToString 5`, the very id recorded in the deletion log — a previously
deleted id is reused. -/
theorem id_reuse_counterexample :
    (runRepo [RepoEv.createSave 5 5 "a" "b" Category.general false,
      RepoEv.remove (natToString 5),
      RepoEv.createSave 5 6 "c" "d" Category.general false]).deletedIds =
        [natToString 5] ∧
    idsOf (runRepo [RepoEv.createSave 5 5 "a" "b" Category.general false,
      RepoEv.remove (natToString 5),
      RepoEv.createSave 5 6 "c" "d" Category.general false]).notes =
        [natToString 5] := by
  constructor <;>
    simp [runRepo, initRepo, stepRepo, upsertNote, mkDraft, toggleFav, idsOf]

/-- C9 (amended): ids are pairwise distinct in every collection reachable
from the empty repository, and an id of a previously deleted note is never
assigned to a newly created note PROVIDED the clock readings at note
creations are strictly increasing; when the clock repeats a reading within
one millisecond the id is reused (see the counterexample). -/
theorem note_ids_amended :
    (∀ evs : List RepoEv, (idsOf (runRepo evs).notes).Nodup) ∧
    (∀ (e1 : List RepoEv) (tC tS : Nat) (ti co : String) (cat : Category) (fav : Bool)
      (e2 : List RepoEv),
      List.Pairwise (fun a b => a < b)
        (creationTimes (e1 ++ RepoEv.createSave tC tS ti co cat fav :: e2)) →
      natToString tC ∉ (runRepo e1).deletedIds) := by
  constructor
  · intro evs
    exact runRepo_ids_nodup_aux evs initRepo (by simp [initRepo, idsOf])
  · intro e1 tC tS ti co cat fav e2 hps hmem
    have h1 := runRepo_deleted_origin e1 _ hmem
    obtain ⟨t, ht, hteq⟩ := List.mem_map.mp h1
    have heq : t = tC := natToString_inj hteq
    subst heq
    have hct : creationTimes (e1 ++ RepoEv.createSave t tS ti co cat fav :: e2) =
        creationTimes e1 ++ (t :: creationTimes e2) := by
      simp [creationTimes, List.filterMap_append, List.filterMap_cons]
    rw [hct] at hps
    have hlt := (List.pairwise_append.mp hps).2.2 t ht t (List.mem_cons_self _ _)
    omega

/-- C10: `toggleFavorite` flips `isFavorite` on every note carrying the given
id and changes nothing else — length, positions and all other fields
(including `updatedAt`, hence sort position) are untouched, and a missing id
leaves the whole collection unchanged. -/
theorem toggle_favorite_spec (notes : List Note) (i : String) :
    (toggleFav notes i).length = notes.length ∧
    (∀ j : Nat, (toggleFav notes i)[j]? =
      (notes[j]?).map (fun n =>
        if n.id = i then { n with isFavorite := !n.isFavorite } else n)) ∧
    (∀ j : Nat, ((toggleFav notes i)[j]?).map
        (fun n => (n.id, n.title, n.content, n.category, n.updatedAt)) =
      (notes[j]?).map (fun n => (n.id, n.title, n.content, n.category, n.updatedAt))) ∧
    ((∀ n ∈ notes, n.id ≠ i) → toggleFav notes i = notes) := by
  refine ⟨by simp [toggleFav], ?_, ?_, ?_⟩
  · intro j
    rw [toggleFav, List.getElem?_map]
  · intro j
    rw [toggleFav, List.getElem?_map]
    cases notes[j]? with
    | none => rfl
    | some n => by_cases h : n.id = i <;> simp [h]
  · intro h
    rw [toggleFav]
    have hmap : notes.map (fun n =>
        if n.id = i then { n with isFavorite := !n.isFavorite } else n) = notes.map id :=
      List.map_congr_left (fun n hn => by simp [h n hn])
    simpa using hmap

/-- Scenario check from the spec (§8.9): toggling a missing id on a three-note
collection changes nothing. -/
theorem toggle_missing_scenario :
    toggleFav [⟨"1", "a", "x", .general, 1, false⟩, ⟨"2", "b", "y", .work, 2, true⟩,
      ⟨"3", "c", "z", .ideas, 3, false⟩] "missing-id" =
      [⟨"1", "a", "x", .general, 1, false⟩, ⟨"2", "b", "y", .work, 2, true⟩,
        ⟨"3", "c", "z", .ideas, 3, false⟩] := by decide

end NotesApp
